import Mathlib

/-!
Verification of the batching / dependency-expansion engine of `aider_all.py`.

The program's pure logic is shallowly embedded:
* file paths and textual content are `List Char`;
* the per-file token cost (`calculate_token_count([file])`, an I/O action in
  the source) is abstracted as a function `tc : α → Nat` where the packer is
  concerned, and as a pair of oracles `read : α → Option (List Char)`
  (`none` models an unreadable/undecodable file, i.e. the `except` branch)
  and `enc : List Char → Nat` (the tiktoken encoder's token count) where the
  estimator itself is concerned;
* the dependency-cruiser subprocess is abstracted as an oracle returning
  either its stdout lines or one of the two caught failure modes;
* the aider invocation is abstracted as the sequence of dispatch units or
  command arguments the driver constructs.
-/

namespace AiderAll

/-! ## Token estimator (`calculate_token_count`) -/

/-- Python `str.strip()`: drop leading and trailing whitespace. -/
def pyStrip (s : List Char) : List Char :=
  ((s.dropWhile Char.isWhitespace).reverse.dropWhile Char.isWhitespace).reverse

/-- Embedding of `calculate_token_count(files)`.  The loop
`for file in files: try: ... total_tokens += file_tokens except: ...` is a
left fold; `read file = none` models the caught exception (unreadable or
undecodable file, contributing nothing), and `enc` models
`len(enc.encode(content.strip()))` applied to the stripped content. -/
def calculate_token_count (read : α → Option (List Char)) (enc : List Char → Nat)
    (files : List α) : Nat :=
  files.foldl (fun total_tokens file =>
    match read file with
    | some content => total_tokens + enc (pyStrip content)
    | none => total_tokens) 0

/-- The cost one file contributes to `calculate_token_count`: the encoder's
count of its stripped content, or 0 when it cannot be read or decoded. -/
def fileCost (read : α → Option (List Char)) (enc : List Char → Nat) (f : α) : Nat :=
  match read f with
  | some content => enc (pyStrip content)
  | none => 0

/-! ## Extension filter (`filter_files_for_dependency_cruiser`) -/

/-- A Python value as it may occur in the `files` argument of
`filter_files_for_dependency_cruiser`: a string, a list of values, or any
other object (both `isinstance` checks fail on it). -/
inductive PyVal where
  | str (s : List Char)
  | list (xs : List PyVal)
  | other

/-- `valid_extensions = (".js", ".ts", ".jsx", ".vue")`. -/
def valid_extensions : List (List Char) :=
  [".js".toList, ".ts".toList, ".jsx".toList, ".vue".toList]

/-- Python `str.lower()` (character-wise; the extensions are ASCII). -/
def pyLower (s : List Char) : List Char := s.map Char.toLower

/-- `is_valid_file(file)`: a string whose lower-cased form ends with one of
the valid extensions (`endswith` on a tuple tests each member). -/
def is_valid_file : PyVal → Bool
  | .str s => valid_extensions.any (fun ext => ext.isSuffixOf (pyLower s))
  | _ => false

/-- Embedding of `filter_files_for_dependency_cruiser(files)`.  The result
holds the string payloads (the Python list holds the `str` objects
themselves); elements of a nested list that are not valid files — strings
with other extensions, non-strings and deeper lists — are dropped, exactly
as the comprehension `[f for f in file if is_valid_file(f)]` drops them. -/
def filter_files_for_dependency_cruiser (files : List PyVal) : List (List Char) :=
  files.foldl (fun filtered file =>
    match file with
    | .list xs => filtered ++ xs.filterMap (fun f =>
        match f with
        | .str s => if is_valid_file (.str s) then some s else none
        | _ => none)
    | .str s => if is_valid_file (.str s) then filtered ++ [s] else filtered
    | .other => filtered) []

/-! ## Oracle output parsing (`process_dependency_cruiser_output`) -/

/-- Split a character list at the first occurrence of `sep`, returning the
parts before and after it (`none` when `sep` does not occur). -/
def splitOnceLeft (sep : List Char) : List Char → Option (List Char × List Char)
  | [] => if sep.isEmpty then some ([], []) else none
  | c :: rest =>
      if sep.isPrefixOf (c :: rest) then some ([], (c :: rest).drop sep.length)
      else
        match splitOnceLeft sep rest with
        | some (a, b) => some (c :: a, b)
        | none => none

/-- Split at the last occurrence of `sep`: Python's `s.rsplit(sep, 1)` when
`sep` occurs in `s` (`none` when it does not). -/
def splitOnceRight (sep s : List Char) : Option (List Char × List Char) :=
  match splitOnceLeft sep.reverse s.reverse with
  | some (a, b) => some (b.reverse, a.reverse)
  | none => none

/-- Python's substring test `sep in s`. -/
def containsSeq (sep s : List Char) : Bool := (splitOnceRight sep s).isSome

/-- The correctly encoded arrow token `" → "` of dependency-cruiser output. -/
def arrowStd : List Char := [' ', '→', ' ']

/-- The known mis-decoded byte-level variant of the arrow (the UTF-8 bytes of
`→` read back as cp1252), i.e. space, U+00E2, U+2020, U+2019, space. -/
def arrowMojibake : List Char := [' ', 'â', '†', Char.ofNat 8217, ' ']

/-- The guard `" → " in line_clean or " â†’ " in line_clean`. -/
def hasArrowToken (line : List Char) : Bool :=
  containsSeq arrowStd line || containsSeq arrowMojibake line

/-- `arrow = " â†’ " if " â†’ " in line_clean else " → "`. -/
def chosenArrow (line : List Char) : List Char :=
  if containsSeq arrowMojibake line then arrowMojibake else arrowStd

/-- One iteration of the parsing loop of `process_dependency_cruiser_output`.
`line.encode("utf-8","ignore").decode("utf-8")` is the identity on (well
formed) strings, so `line_clean = line`.  A line without either arrow token,
and a line whose stripped source or target is empty, raise a `ValueError`
that is immediately caught and logged: they leave the set unchanged. -/
def processLine (deps : Finset (List Char)) (line : List Char) : Finset (List Char) :=
  if hasArrowToken line then
    match splitOnceRight (chosenArrow line) line with
    | some (s, t) =>
        let source := pyStrip s
        let target := pyStrip t
        if source ≠ [] ∧ target ≠ [] then insert source (insert target deps) else deps
    | none => deps
  else deps

/-- Embedding of `process_dependency_cruiser_output(raw_output)`: fold the
per-line parser over the output lines, starting from the empty set.  (The
early return for empty `raw_output` coincides with the fold over `[]`; the
result is the set `dependencies`, whose list conversion order we do not
model.) -/
def process_dependency_cruiser_output (raw_output : List (List Char)) :
    Finset (List Char) :=
  raw_output.foldl processLine ∅

/-! ## Oracle invocation (`run_dependency_cruiser`, `get_dependencies`) -/

/-- Outcome of spawning the dependency-cruiser subprocess: its stdout lines
on success, or one of the two caught failure modes (`CalledProcessError` for
a non-zero exit, `FileNotFoundError` for a missing executable). -/
inductive OracleOutcome where
  | ok (stdout_lines : List (List Char))
  | calledProcessError
  | fileNotFound

/-- Embedding of `run_dependency_cruiser(files)`: on success the stripped
stdout lines are parsed into the dependency set; on either caught exception
the failure is logged and an empty result is returned. -/
def run_dependency_cruiser (oracle : List (List Char) → OracleOutcome)
    (files : List (List Char)) : Finset (List Char) :=
  match oracle files with
  | .ok raw_output => process_dependency_cruiser_output raw_output
  | .calledProcessError => ∅
  | .fileNotFound => ∅

/-- Embedding of `get_dependencies(files)`: empty input and an empty
post-filter list short-circuit to the empty set without invoking the
oracle. -/
def get_dependencies (oracle : List (List Char) → OracleOutcome)
    (files : List PyVal) : Finset (List Char) :=
  if files.isEmpty then ∅
  else if (filter_files_for_dependency_cruiser files).isEmpty then ∅
  else run_dependency_cruiser oracle (filter_files_for_dependency_cruiser files)

/-! ## Command construction (`execute_aider_command`) -/

/-- One logical argument on the constructed aider command line: `read f`
stands for the flag pair `["--read", f]`, `file f` for `["--file", f]`,
`model m` for `["--model", m]`, `editFormat e` for `["--edit-format", e]`,
and `message m` for `["--message", m]`. -/
inductive CmdArg (α : Type u) where
  | model (m : List Char)
  | editFormat (e : List Char)
  | read (f : α)
  | file (f : α)
  | message (m : List Char)
  deriving DecidableEq

/-- Embedding of the command construction in `execute_aider_command`.  The
model / edit-format selection (default, random or turn-based) is abstracted
into the already-chosen `modelChoice` (`none` = use aider's default, no
flag) and `edit_format`; `manually_added_files` stands for the global
`MANUALLY_ADDED_FILES`.  The loop
`for file in MANUALLY_ADDED_FILES + read_only_files: cmd.extend(["--read", file])`
is the map over the concatenation; formatting of the message placeholders is
abstracted into `msg`. -/
def execute_aider_command_cmd (modelChoice : Option (List Char))
    (edit_format : List Char) (manually_added_files : List α)
    (files read_only_files : List α) (msg : List Char) : List (CmdArg α) :=
  (match modelChoice with
    | some m => [CmdArg.model m]
    | none => [])
  ++ (if edit_format = "none".toList then [] else [CmdArg.editFormat edit_format])
  ++ (manually_added_files ++ read_only_files).map CmdArg.read
  ++ files.map CmdArg.file
  ++ [CmdArg.message msg]

/-! ## Capacity packer (`split_files_by_token_limit`) -/

/-- The main loop of `split_files_by_token_limit`, including the trailing
`if current_group: file_groups.append(current_group)` flush but *not* the
sole-oversized-file promotion.  State is carried exactly as in the source:
`fg` = `file_groups`, `cg` = `current_group`, `ct` = `current_tokens`,
`ov` = `oversized_files`; `tc f` stands for `calculate_token_count([f])`. -/
def splitGo (tc : α → Nat) (limit : Nat) :
    List α → List (List α) → List α → Nat → List α → List (List α) × List α
  | [], fg, cg, _, ov =>
      if cg.isEmpty then (fg, ov) else (fg ++ [cg], ov)
  | f :: rest, fg, cg, ct, ov =>
      if limit < tc f then
        -- file individually exceeds the limit: append to oversized, flush group
        if cg.isEmpty then
          splitGo tc limit rest fg cg ct (ov ++ [f])
        else
          splitGo tc limit rest (fg ++ [cg]) [] 0 (ov ++ [f])
      else if limit < ct + tc f then
        -- adding the file would exceed the limit: flush, start a new group
        if cg.isEmpty then
          splitGo tc limit rest fg [f] (tc f) ov
        else
          splitGo tc limit rest (fg ++ [cg]) [f] (tc f) ov
      else
        -- add the file to the current group
        splitGo tc limit rest fg (cg ++ [f]) (ct + tc f) ov

/-- The packing loop of `split_files_by_token_limit` run from the initial
state (everything up to, but excluding, the sole-oversized-file promotion). -/
def packLoop (tc : α → Nat) (files : List α) (token_limit : Nat) :
    List (List α) × List α :=
  splitGo tc token_limit files [] [] 0 []

/-- Embedding of `split_files_by_token_limit(files, token_limit)`: the packing
loop followed by the post-processing step
`if not file_groups and len(oversized_files) == 1: promote`. -/
def split_files_by_token_limit (tc : α → Nat) (files : List α) (token_limit : Nat) :
    List (List α) × List α :=
  let r := packLoop tc files token_limit
  if r.1.isEmpty ∧ r.2.length = 1 then (r.1 ++ [r.2], []) else r

/-! ## Grouping strategy (`process_standard`) -/

/-- The output contract of one aider invocation: the mutable files and the
read-only files the driver passes to `execute_aider_command` (the randomly
chosen message is not modelled). -/
structure DispatchUnit (α : Type u) where
  mutableFiles : List α
  readOnlyFiles : List α
  deriving DecidableEq

/-- Embedding of `process_standard`: run the packer over the files to
process, then execute one aider command per group (in order) followed by one
per oversized file (in order), each with the unchanged read-only list.  The
trace of emitted invocations stands for the sequence of
`execute_aider_command` calls. -/
def process_standard (tc : α → Nat) (files_to_process read_only_files : List α)
    (token_limit : Nat) : List (DispatchUnit α) :=
  let p := split_files_by_token_limit tc files_to_process token_limit
  let afterGroups := p.1.foldl
    (fun acc file_group => acc ++ [⟨file_group, read_only_files⟩]) []
  p.2.foldl (fun acc file => acc ++ [⟨[file], read_only_files⟩]) afterGroups

/-! ## Invariants of the packing loop -/

lemma coe_cons_eq (a : α) (l : List α) : (↑(a :: l) : Multiset α) = {a} + ↑l := by
  rw [← Multiset.cons_coe, ← Multiset.singleton_add]

/-- The loop neither loses nor duplicates a file: the multiset of files in
the groups and the oversized list equals the initial state plus the
remaining input. -/
lemma splitGo_multiset (tc : α → Nat) (limit : Nat) :
    ∀ (rest : List α) (fg : List (List α)) (cg : List α) (ct : Nat) (ov : List α),
      ((splitGo tc limit rest fg cg ct ov).1.flatten : Multiset α)
          + ↑(splitGo tc limit rest fg cg ct ov).2
        = ↑fg.flatten + ↑cg + ↑ov + ↑rest := by
  intro rest
  induction rest with
  | nil =>
      intro fg cg ct ov
      simp only [splitGo]
      by_cases h : cg.isEmpty
      · rw [if_pos h]
        rw [List.isEmpty_iff] at h
        subst h
        simp only [List.flatten_append, List.flatten_cons, List.flatten_nil,
          List.append_nil, ← Multiset.coe_add, coe_cons_eq, Multiset.coe_nil]
        abel
      · rw [if_neg h]
        simp only [List.flatten_append, List.flatten_cons, List.flatten_nil,
          List.append_nil, ← Multiset.coe_add, coe_cons_eq, Multiset.coe_nil]
        abel
  | cons f rest ih =>
      intro fg cg ct ov
      simp only [splitGo]
      by_cases h1 : limit < tc f
      · rw [if_pos h1]
        by_cases h2 : cg.isEmpty
        · rw [if_pos h2, ih]
          simp only [List.flatten_append, List.flatten_cons, List.flatten_nil,
            List.append_nil, ← Multiset.coe_add, coe_cons_eq, Multiset.coe_nil]
          abel
        · rw [if_neg h2, ih]
          simp only [List.flatten_append, List.flatten_cons, List.flatten_nil,
            List.append_nil, ← Multiset.coe_add, coe_cons_eq, Multiset.coe_nil]
          abel
      · rw [if_neg h1]
        by_cases h3 : limit < ct + tc f
        · rw [if_pos h3]
          by_cases h2 : cg.isEmpty
          · rw [if_pos h2, ih]
            rw [List.isEmpty_iff] at h2
            subst h2
            simp only [List.flatten_append, List.flatten_cons, List.flatten_nil,
              List.append_nil, ← Multiset.coe_add, coe_cons_eq, Multiset.coe_nil]
            abel
          · rw [if_neg h2, ih]
            simp only [List.flatten_append, List.flatten_cons, List.flatten_nil,
              List.append_nil, ← Multiset.coe_add, coe_cons_eq, Multiset.coe_nil]
            abel
        · rw [if_neg h3, ih]
          simp only [List.flatten_append, List.flatten_cons, List.flatten_nil,
            List.append_nil, ← Multiset.coe_add, coe_cons_eq, Multiset.coe_nil]
          abel

/-- The oversized list produced by the loop is exactly the (order-preserving)
filter of the remaining input by `cost > limit`, appended to the oversized
list accumulated so far. -/
lemma splitGo_oversized (tc : α → Nat) (limit : Nat) :
    ∀ (rest : List α) (fg : List (List α)) (cg : List α) (ct : Nat) (ov : List α),
      (splitGo tc limit rest fg cg ct ov).2
        = ov ++ rest.filter (fun f => decide (limit < tc f)) := by
  intro rest
  induction rest with
  | nil =>
      intro fg cg ct ov
      simp only [splitGo]
      by_cases h : cg.isEmpty
      · rw [if_pos h]
        simp
      · rw [if_neg h]
        simp
  | cons f rest ih =>
      intro fg cg ct ov
      simp only [splitGo]
      by_cases h1 : limit < tc f
      · rw [if_pos h1]
        by_cases h2 : cg.isEmpty
        · rw [if_pos h2, ih]
          simp [List.filter_cons, h1]
        · rw [if_neg h2, ih]
          simp [List.filter_cons, h1]
      · rw [if_neg h1]
        by_cases h3 : limit < ct + tc f
        · rw [if_pos h3]
          by_cases h2 : cg.isEmpty
          · rw [if_pos h2, ih]
            simp [List.filter_cons, h1]
          · rw [if_neg h2, ih]
            simp [List.filter_cons, h1]
        · rw [if_neg h3, ih]
          simp [List.filter_cons, h1]

/-- Every group emitted by the loop is non-empty with token sum within the
limit, provided the accumulated groups already satisfy this and the running
cost is the sum of the open group and within the limit. -/
lemma splitGo_groups (tc : α → Nat) (limit : Nat) :
    ∀ (rest : List α) (fg : List (List α)) (cg : List α) (ct : Nat) (ov : List α),
      (∀ g ∈ fg, g ≠ [] ∧ (g.map tc).sum ≤ limit) →
      ct = (cg.map tc).sum → ct ≤ limit →
      ∀ g ∈ (splitGo tc limit rest fg cg ct ov).1, g ≠ [] ∧ (g.map tc).sum ≤ limit := by
  intro rest
  induction rest with
  | nil =>
      intro fg cg ct ov hfg hct hle
      simp only [splitGo]
      by_cases h : cg.isEmpty
      · rw [if_pos h]
        exact hfg
      · rw [if_neg h]
        intro g hg
        rcases List.mem_append.1 hg with hg | hg
        · exact hfg g hg
        · rcases List.mem_singleton.1 hg with rfl
          refine ⟨?_, by omega⟩
          intro hnil
          rw [hnil] at h
          exact h List.isEmpty_nil
  | cons f rest ih =>
      intro fg cg ct ov hfg hct hle
      simp only [splitGo]
      by_cases h1 : limit < tc f
      · rw [if_pos h1]
        by_cases h2 : cg.isEmpty
        · rw [if_pos h2]
          exact ih fg cg ct (ov ++ [f]) hfg hct hle
        · rw [if_neg h2]
          refine ih (fg ++ [cg]) [] 0 (ov ++ [f]) ?_ rfl (Nat.zero_le _)
          intro g hg
          rcases List.mem_append.1 hg with hg | hg
          · exact hfg g hg
          · rcases List.mem_singleton.1 hg with rfl
            refine ⟨?_, by omega⟩
            intro hnil
            rw [hnil] at h2
            exact h2 List.isEmpty_nil
      · rw [if_neg h1]
        by_cases h3 : limit < ct + tc f
        · rw [if_pos h3]
          by_cases h2 : cg.isEmpty
          · rw [if_pos h2]
            refine ih fg [f] (tc f) ov hfg (by simp) (by omega)
          · rw [if_neg h2]
            refine ih (fg ++ [cg]) [f] (tc f) ov ?_ (by simp) (by omega)
            intro g hg
            rcases List.mem_append.1 hg with hg | hg
            · exact hfg g hg
            · rcases List.mem_singleton.1 hg with rfl
              refine ⟨?_, by omega⟩
              intro hnil
              rw [hnil] at h2
              exact h2 List.isEmpty_nil
        · rw [if_neg h3]
          refine ih fg (cg ++ [f]) (ct + tc f) ov hfg (by simp [hct]) (by omega)

lemma packLoop_multiset (tc : α → Nat) (files : List α) (limit : Nat) :
    ((packLoop tc files limit).1.flatten : Multiset α) + ↑(packLoop tc files limit).2
      = ↑files := by
  have h := splitGo_multiset tc limit files [] [] 0 []
  simpa using h

lemma packLoop_oversized (tc : α → Nat) (files : List α) (limit : Nat) :
    (packLoop tc files limit).2 = files.filter (fun f => decide (limit < tc f)) := by
  have h := splitGo_oversized tc limit files [] [] 0 []
  simpa using h

/-! ## Helper lemmas for the estimator, the trace and the parser -/

lemma calculate_token_count_shift (read : α → Option (List Char)) (enc : List Char → Nat) :
    ∀ (files : List α) (t : Nat),
      files.foldl (fun total_tokens file =>
          match read file with
          | some content => total_tokens + enc (pyStrip content)
          | none => total_tokens) t
        = t + (files.map (fileCost read enc)).sum := by
  intro files
  induction files with
  | nil => intro t; simp
  | cons f rest ih =>
      intro t
      simp only [List.foldl_cons, List.map_cons, List.sum_cons]
      rw [ih]
      have hstep : (match read f with
          | some content => t + enc (pyStrip content)
          | none => t) = t + fileCost read enc f := by
        cases hf : read f <;> simp [fileCost, hf]
      rw [hstep]
      omega

lemma calculate_token_count_eq_sum (read : α → Option (List Char))
    (enc : List Char → Nat) (files : List α) :
    calculate_token_count read enc files = (files.map (fileCost read enc)).sum := by
  rw [calculate_token_count, calculate_token_count_shift]
  simp

lemma calculate_token_count_singleton (read : α → Option (List Char))
    (enc : List Char → Nat) (f : α) :
    calculate_token_count read enc [f] = fileCost read enc f := by
  rw [calculate_token_count_eq_sum]
  simp

lemma foldl_emit (g : β → γ) :
    ∀ (l : List β) (acc : List γ),
      l.foldl (fun a x => a ++ [g x]) acc = acc ++ l.map g := by
  intro l
  induction l with
  | nil => intro acc; simp
  | cons x rest ih => intro acc; simp [ih]

lemma processLine_subset (deps : Finset (List Char)) (line : List Char) :
    deps ⊆ processLine deps line := by
  rw [processLine]
  split
  · split
    · dsimp only
      split_ifs
      · intro x hx
        exact Finset.mem_insert_of_mem (Finset.mem_insert_of_mem hx)
      · exact Finset.Subset.refl deps
    · exact Finset.Subset.refl deps
  · exact Finset.Subset.refl deps

lemma foldl_processLine_subset :
    ∀ (raw : List (List Char)) (deps : Finset (List Char)),
      deps ⊆ raw.foldl processLine deps := by
  intro raw
  induction raw with
  | nil => intro deps; exact Finset.Subset.refl deps
  | cons l rest ih =>
      intro deps
      simp only [List.foldl_cons]
      exact (processLine_subset deps l).trans (ih _)

lemma mem_foldl_processLine (x line : List Char)
    (hl : ∀ deps, x ∈ processLine deps line) :
    ∀ (raw : List (List Char)) (deps : Finset (List Char)), line ∈ raw →
      x ∈ raw.foldl processLine deps := by
  intro raw
  induction raw with
  | nil => intro deps h; cases h
  | cons a rest ih =>
      intro deps hmem
      simp only [List.foldl_cons]
      rcases List.mem_cons.1 hmem with rfl | hmem
      · exact foldl_processLine_subset rest _ (hl deps)
      · exact ih _ hmem

lemma processLine_eq_insert (deps : Finset (List Char)) (line src tgt : List Char)
    (hsplit : splitOnceRight (chosenArrow line) line = some (src, tgt))
    (hs : pyStrip src ≠ []) (ht : pyStrip tgt ≠ []) :
    processLine deps line = insert (pyStrip src) (insert (pyStrip tgt) deps) := by
  have hguard : hasArrowToken line = true := by
    rw [hasArrowToken]
    by_cases hm : containsSeq arrowMojibake line
    · simp [hm]
    · have hstd : chosenArrow line = arrowStd := by
        rw [chosenArrow, if_neg hm]
      rw [hstd] at hsplit
      have : containsSeq arrowStd line = true := by
        rw [containsSeq, hsplit]
        rfl
      simp [this]
  rw [processLine, if_pos hguard, hsplit]
  exact if_pos ⟨hs, ht⟩

/-! ## Claims about the capacity packer -/

/-- C1 (counterexample): the claim "the groups output is never empty when the
input is non-empty" is false as stated.  With two files of cost 200 and
capacity 100, the main loop produces no normal group and two oversized files,
so the sole-oversized-file promotion does not fire and `groups` is empty
although the input is non-empty. -/
theorem packer_groups_empty_counterexample :
    ([0, 1] : List Nat) ≠ [] ∧
      (split_files_by_token_limit (fun _ => 200) [0, 1] 100).1 = [] ∧
      (split_files_by_token_limit (fun _ => 200) [0, 1] 100).2 = [0, 1] := by
  decide

/-- C1 (amended): `split_files_by_token_limit` produces at least one group for
every non-empty input list in which at most one file's cost exceeds the
capacity; in particular, when the main loop produces no normal groups and
there is a sole oversized file, that file is promoted into `groups` and
removed from `oversized`.  (With two or more oversized files and no normal
group, `groups` is empty.) -/
theorem packer_groups_nonempty (tc : α → Nat) (files : List α) (limit : Nat)
    (h1 : files ≠ [])
    (h2 : files.countP (fun f => decide (limit < tc f)) ≤ 1) :
    (split_files_by_token_limit tc files limit).1 ≠ [] := by
  intro hempty
  rw [split_files_by_token_limit] at hempty
  split_ifs at hempty with hp
  · exact absurd hempty (by simp)
  · have hperm : ((packLoop tc files limit).2 : Multiset α) = ↑files := by
      have h := packLoop_multiset tc files limit
      rw [hempty] at h
      simpa using h
    have hlen : (packLoop tc files limit).2.length = files.length :=
      (Multiset.coe_eq_coe.1 hperm).length_eq
    have hcnt : (packLoop tc files limit).2.length
        = files.countP (fun f => decide (limit < tc f)) := by
      rw [packLoop_oversized, List.countP_eq_length_filter]
    have hpos : 0 < files.length := List.length_pos.2 h1
    have hone : (packLoop tc files limit).2.length = 1 := by omega
    exact hp ⟨by rw [List.isEmpty_iff]; exact hempty, hone⟩

/-- Witness for the amended C1, on the spec's own example: a single input file
of cost 500 against capacity 100 is promoted, so `groups` is non-empty. -/
theorem packer_groups_nonempty_witness :
    (split_files_by_token_limit (fun _ => 500) [0] 100).1 ≠ [] :=
  packer_groups_nonempty (fun _ => 500) [0] 100 (by decide) (by decide)

/-- C2: partition totality.  The multiset union of all files across the
returned groups and the oversized list equals exactly the input list: no file
is dropped and none is duplicated. -/
theorem packer_partition_totality (tc : α → Nat) (files : List α) (limit : Nat) :
    ((split_files_by_token_limit tc files limit).1.flatten : Multiset α)
      + ↑(split_files_by_token_limit tc files limit).2 = ↑files := by
  have h := packLoop_multiset tc files limit
  rw [split_files_by_token_limit]
  split_ifs with hp
  · obtain ⟨hp1, hp2⟩ := hp
    rw [List.isEmpty_iff] at hp1
    rw [hp1] at h
    simp only [List.flatten_nil, Multiset.coe_nil, zero_add] at h
    simp [hp1, h]
  · exact h

/-- C3: capacity respect.  Every group produced by the main packing loop is
non-empty and its summed cost is within the limit; every group of the final
output is either such a loop group or the promoted singleton of an oversized
file. -/
theorem packer_capacity_respect (tc : α → Nat) (files : List α) (limit : Nat) :
    (∀ g ∈ (packLoop tc files limit).1, g ≠ [] ∧ (g.map tc).sum ≤ limit) ∧
    (∀ g ∈ (split_files_by_token_limit tc files limit).1,
        g ∈ (packLoop tc files limit).1 ∨ ∃ f, g = [f] ∧ limit < tc f) := by
  constructor
  · exact splitGo_groups tc limit files [] [] 0 [] (by simp) rfl (Nat.zero_le _)
  · intro g hg
    rw [split_files_by_token_limit] at hg
    split_ifs at hg with hp
    · obtain ⟨hp1, hp2⟩ := hp
      rw [List.isEmpty_iff] at hp1
      rw [hp1] at hg
      simp only [List.nil_append, List.mem_singleton] at hg
      subst hg
      right
      obtain ⟨f, hf⟩ := List.length_eq_one.1 hp2
      refine ⟨f, hf, ?_⟩
      have hmem : f ∈ (packLoop tc files limit).2 := by
        rw [hf]; exact List.mem_singleton_self f
      rw [packLoop_oversized] at hmem
      exact of_decide_eq_true (List.mem_filter.1 hmem).2
    · exact Or.inl hg

/-- Witness for C3 on the spec's §8 example (costs 40/50/30/200, capacity
100): the first loop group `[F1, F2]` is non-empty and costs 90 ≤ 100. -/
theorem packer_capacity_respect_witness :
    ([1, 2] : List Nat) ≠ [] ∧
      (([1, 2] : List Nat).map
        (fun n => if n = 1 then 40 else if n = 2 then 50 else if n = 3 then 30 else 200)).sum
        ≤ 100 :=
  (packer_capacity_respect
      (fun n => if n = 1 then 40 else if n = 2 then 50 else if n = 3 then 30 else 200)
      [1, 2, 3, 4] 100).1 [1, 2] (by decide)

/-- C4: oversized correctness.  The loop's oversized list is exactly the
input filtered by `cost > capacity` (so a file whose cost equals the capacity
is never oversized); every file in the final oversized list strictly exceeds
the capacity; and the final oversized list is the loop's one except when the
sole-oversized-file promotion empties it. -/
theorem packer_oversized_correct (tc : α → Nat) (files : List α) (limit : Nat) :
    (packLoop tc files limit).2 = files.filter (fun f => decide (limit < tc f)) ∧
    (∀ f ∈ (split_files_by_token_limit tc files limit).2, limit < tc f) ∧
    ((split_files_by_token_limit tc files limit).2 = (packLoop tc files limit).2 ∨
      ((packLoop tc files limit).1 = [] ∧ (packLoop tc files limit).2.length = 1 ∧
        (split_files_by_token_limit tc files limit).2 = [])) := by
  refine ⟨packLoop_oversized tc files limit, ?_, ?_⟩
  · intro f hf
    rw [split_files_by_token_limit] at hf
    split_ifs at hf with hp
    · simp at hf
    · rw [packLoop_oversized] at hf
      exact of_decide_eq_true (List.mem_filter.1 hf).2
  · rw [split_files_by_token_limit]
    split_ifs with hp
    · obtain ⟨hp1, hp2⟩ := hp
      rw [List.isEmpty_iff] at hp1
      exact Or.inr ⟨hp1, hp2, rfl⟩
    · exact Or.inl rfl

/-- Witness for C4: with two files of cost 200 against capacity 100, file `0`
is in the final oversized list and indeed exceeds the capacity. -/
theorem packer_oversized_correct_witness :
    (0 : Nat) ∈ (split_files_by_token_limit (fun _ => 200) [0, 1] 100).2 ∧
      (100 : Nat) < 200 :=
  ⟨by decide, (packer_oversized_correct (fun _ => 200) [0, 1] 100).2.1 0 (by decide)⟩

/-! ## Claims about the estimator, the standard strategy, the parser,
the oracle adapter, the extension filter and the command builder -/

/-- C7: `calculate_token_count` totals the per-file costs — the batch count
equals the sum of the singleton counts — and a file that cannot be read or
decoded contributes exactly 0, without aborting the rest of the batch. -/
theorem token_count_total (read : α → Option (List Char)) (enc : List Char → Nat)
    (files : List α) :
    calculate_token_count read enc files
      = (files.map (fun f => calculate_token_count read enc [f])).sum ∧
    ∀ f : α, read f = none → calculate_token_count read enc [f] = 0 := by
  constructor
  · rw [calculate_token_count_eq_sum]
    simp [calculate_token_count_singleton]
  · intro f hf
    rw [calculate_token_count_singleton]
    simp [fileCost, hf]

/-- Witness for C7: an unreadable file contributes 0. -/
theorem token_count_total_witness :
    calculate_token_count (fun _ : Nat => (none : Option (List Char))) (fun _ => 7) [0] = 0 :=
  (token_count_total (fun _ : Nat => (none : Option (List Char))) (fun _ => 7) [0]).2 0 rfl

/-- C8: under the standard policy the emitted trace is exactly one invocation
per group (with the group's members as mutable files) followed by one
invocation per oversized file (with that single file as mutable), groups
before oversized singletons, each in packer order; every invocation receives
the base read-only list unchanged. -/
theorem process_standard_trace (tc : α → Nat) (files ro : List α) (limit : Nat) :
    process_standard tc files ro limit
      = (split_files_by_token_limit tc files limit).1.map
          (fun g => ⟨g, ro⟩)
        ++ (split_files_by_token_limit tc files limit).2.map
          (fun f => ⟨[f], ro⟩) ∧
    ∀ u ∈ process_standard tc files ro limit, u.readOnlyFiles = ro := by
  have heq : process_standard tc files ro limit
      = (split_files_by_token_limit tc files limit).1.map
          (fun g => (⟨g, ro⟩ : DispatchUnit α))
        ++ (split_files_by_token_limit tc files limit).2.map
          (fun f => (⟨[f], ro⟩ : DispatchUnit α)) := by
    rw [process_standard]
    simp only [foldl_emit]
    simp
  refine ⟨heq, ?_⟩
  intro u hu
  rw [heq] at hu
  rcases List.mem_append.1 hu with hu | hu <;>
    · obtain ⟨x, _, rfl⟩ := List.mem_map.1 hu
      rfl

/-- Witness for C8: on a one-file input the emitted trace is a single unit,
and its read-only list is the base read-only list. -/
theorem process_standard_trace_witness :
    process_standard (fun _ => 1) [0] [5] 10 = [⟨[0], [5]⟩] ∧
      (⟨[0], [5]⟩ : DispatchUnit Nat).readOnlyFiles = [5] :=
  ⟨by decide, (process_standard_trace (fun _ => 1) [0] [5] 10).2 ⟨[0], [5]⟩ (by decide)⟩

/-- C5: for every oracle-output line that splits at a recognized arrow token
(the literal glyph, or the mis-decoded variant which takes precedence) with
non-empty stripped source and target, both endpoints are in the set returned
by `process_dependency_cruiser_output`; and a line containing no recognized
arrow token leaves the accumulated set unchanged (it is skipped, without
aborting). -/
theorem dependency_edge_endpoints (raw : List (List Char)) (line src tgt : List Char)
    (hmem : line ∈ raw)
    (hsplit : splitOnceRight (chosenArrow line) line = some (src, tgt))
    (hs : pyStrip src ≠ []) (ht : pyStrip tgt ≠ []) :
    pyStrip src ∈ process_dependency_cruiser_output raw ∧
    pyStrip tgt ∈ process_dependency_cruiser_output raw ∧
    ∀ (l : List Char) (deps : Finset (List Char)),
      hasArrowToken l = false → processLine deps l = deps := by
  refine ⟨?_, ?_, ?_⟩
  · exact mem_foldl_processLine _ line
      (fun deps => by
        rw [processLine_eq_insert deps line src tgt hsplit hs ht]
        exact Finset.mem_insert_self _ _) raw ∅ hmem
  · exact mem_foldl_processLine _ line
      (fun deps => by
        rw [processLine_eq_insert deps line src tgt hsplit hs ht]
        exact Finset.mem_insert_of_mem (Finset.mem_insert_self _ _)) raw ∅ hmem
  · intro l deps h
    rw [processLine]
    simp [h]

/-- Witness for C5, on the spec's example line `"/a.js → /b.js"`: both
endpoints are in the expanded set. -/
theorem dependency_edge_endpoints_witness :
    pyStrip "/a.js".toList ∈ process_dependency_cruiser_output ["/a.js → /b.js".toList] ∧
    pyStrip "/b.js".toList ∈ process_dependency_cruiser_output ["/a.js → /b.js".toList] :=
  ⟨(dependency_edge_endpoints ["/a.js → /b.js".toList] "/a.js → /b.js".toList
      "/a.js".toList "/b.js".toList (by decide) (by decide) (by decide) (by decide)).1,
   (dependency_edge_endpoints ["/a.js → /b.js".toList] "/a.js → /b.js".toList
      "/a.js".toList "/b.js".toList (by decide) (by decide) (by decide) (by decide)).2.1⟩

/-- C9: `filter_files_for_dependency_cruiser` returns exactly the string
entries ending, case-insensitively, in one of `.js`, `.ts`, `.jsx`, `.vue`,
after flattening exactly one level of nested lists; non-string entries and
entries nested deeper than one list level are silently dropped. -/
theorem filter_files_characterization (files : List PyVal) :
    filter_files_for_dependency_cruiser files
      = (files.flatMap (fun v => match v with
            | .list xs => xs
            | v => [v])).filterMap
          (fun v => match v with
            | .str s =>
                if [".js".toList, ".ts".toList, ".jsx".toList, ".vue".toList].any
                    (fun ext => ext.isSuffixOf (s.map Char.toLower)) then some s
                else none
            | _ => none) := by
  have go : ∀ (fs : List PyVal) (acc : List (List Char)),
      fs.foldl (fun filtered file =>
        match file with
        | .list xs => filtered ++ xs.filterMap (fun f =>
            match f with
            | .str s => if is_valid_file (.str s) then some s else none
            | _ => none)
        | .str s => if is_valid_file (.str s) then filtered ++ [s] else filtered
        | .other => filtered) acc
      = acc ++ (fs.flatMap (fun v => match v with
            | .list xs => xs
            | v => [v])).filterMap
          (fun v => match v with
            | .str s => if is_valid_file (.str s) then some s else none
            | _ => none) := by
    intro fs
    induction fs with
    | nil => intro acc; simp
    | cons v rest ih =>
        intro acc
        cases v
        case str s =>
          by_cases h : is_valid_file (.str s)
          all_goals simp [List.foldl_cons, List.flatMap_cons, List.filterMap_append,
            List.filterMap_cons, h, ih]
        case list xs =>
          simp [List.foldl_cons, List.flatMap_cons, List.filterMap_append, ih]
        case other =>
          simp [List.foldl_cons, List.flatMap_cons, List.filterMap_cons, ih]
  rw [filter_files_for_dependency_cruiser, go]
  simp only [List.nil_append]
  rfl

/-- C6: `get_dependencies` degrades to the empty set on every failure path:
when extension filtering leaves nothing it returns empty without consulting
the oracle (the result is the same for every oracle), and when the oracle
process is missing or exits non-zero it returns empty. -/
theorem get_dependencies_best_effort (files : List PyVal)
    (oracle : List (List Char) → OracleOutcome) :
    (filter_files_for_dependency_cruiser files = [] →
      get_dependencies oracle files = ∅ ∧
      ∀ oracle2, get_dependencies oracle2 files = get_dependencies oracle files) ∧
    (oracle (filter_files_for_dependency_cruiser files) = .calledProcessError →
      get_dependencies oracle files = ∅) ∧
    (oracle (filter_files_for_dependency_cruiser files) = .fileNotFound →
      get_dependencies oracle files = ∅) := by
  refine ⟨?_, ?_, ?_⟩
  · intro hf
    have hrw : ∀ o : List (List Char) → OracleOutcome, get_dependencies o files = ∅ := by
      intro o
      rw [get_dependencies]
      split_ifs with h1 h2
      · rfl
      · rfl
      · exact absurd (List.isEmpty_iff.2 hf) h2
    exact ⟨hrw oracle, fun o2 => (hrw o2).trans (hrw oracle).symm⟩
  · intro hf
    rw [get_dependencies]
    split_ifs with h1 h2
    · rfl
    · rfl
    · rw [run_dependency_cruiser, hf]
  · intro hf
    rw [get_dependencies]
    split_ifs with h1 h2
    · rfl
    · rfl
    · rw [run_dependency_cruiser, hf]

/-- Witness for C6: a lone `.py` file is filtered out, so even a failing
oracle is never consulted and the result is empty. -/
theorem get_dependencies_best_effort_witness :
    get_dependencies (fun _ => OracleOutcome.calledProcessError)
      [PyVal.str "main.py".toList] = ∅ :=
  ((get_dependencies_best_effort [PyVal.str "main.py".toList]
      (fun _ => OracleOutcome.calledProcessError)).1 (by decide)).1

/-- C10: every pinned file (member of `MANUALLY_ADDED_FILES`) gets a
read-only flag on the constructed command line; the number of read-only
flags for a file is its multiplicity in the pinned list plus its
multiplicity in `read_only_files` (so a pinned file also passed as read-only
is flagged twice); and a file in both a read-only list and `files` gets a
read-only flag and an editable flag on the same command line — no
deduplication or disjointness check. -/
theorem pinned_files_double_read [DecidableEq α] (modelChoice : Option (List Char))
    (edit_format : List Char) (manually_added_files files read_only_files : List α)
    (msg : List Char) :
    (∀ f ∈ manually_added_files,
      CmdArg.read f ∈ execute_aider_command_cmd modelChoice edit_format
        manually_added_files files read_only_files msg) ∧
    (∀ f : α,
      (execute_aider_command_cmd modelChoice edit_format
          manually_added_files files read_only_files msg).count (CmdArg.read f)
        = manually_added_files.count f + read_only_files.count f) ∧
    (∀ f : α, f ∈ manually_added_files ∨ f ∈ read_only_files → f ∈ files →
      CmdArg.read f ∈ execute_aider_command_cmd modelChoice edit_format
        manually_added_files files read_only_files msg ∧
      CmdArg.file f ∈ execute_aider_command_cmd modelChoice edit_format
        manually_added_files files read_only_files msg) := by
  refine ⟨?_, ?_, ?_⟩
  · intro f hf
    simp [execute_aider_command_cmd]
    exact Or.inr (Or.inl hf)
  · intro f
    have hinj : Function.Injective (CmdArg.read : α → CmdArg α) := by
      intro a b h
      cases h
      rfl
    rw [execute_aider_command_cmd.eq_def]
    rw [List.count_append, List.count_append, List.count_append, List.count_append]
    rw [List.count_map_of_injective _ _ hinj, List.count_append]
    have h1 : ∀ m : List Char,
        List.count (CmdArg.read f) [CmdArg.model (α := α) m] = 0 := by
      intro m
      simp [List.count_singleton]
    have h2 : List.count (CmdArg.read f)
        (match modelChoice with
          | some m => [CmdArg.model (α := α) m]
          | none => []) = 0 := by
      cases modelChoice with
      | some m => exact h1 m
      | none => rfl
    have h3 : List.count (CmdArg.read f)
        (if edit_format = "none".toList then []
          else [CmdArg.editFormat (α := α) edit_format]) = 0 := by
      split_ifs
      · rfl
      · simp [List.count_singleton]
    have h4 : List.count (CmdArg.read f) (files.map (CmdArg.file (α := α))) = 0 := by
      rw [List.count_eq_zero]
      intro hmem
      obtain ⟨y, _, hy⟩ := List.mem_map.1 hmem
      cases hy
    have h5 : List.count (CmdArg.read f) [CmdArg.message (α := α) msg] = 0 := by
      simp [List.count_singleton]
    omega
  · intro f hro hfl
    constructor
    · simp [execute_aider_command_cmd]
      exact Or.inr hro
    · simp [execute_aider_command_cmd]
      exact Or.inr hfl

/-- Witness for C10: with the pinned list, the editable list and the
read-only list all equal to `[0]`, file `0` gets the read-only flag twice
and the editable flag as well, on the same command line. -/
theorem pinned_files_double_read_witness :
    (execute_aider_command_cmd none "diff".toList [0] [(0 : Nat)] [0]
        "m".toList).count (CmdArg.read 0) = 2 ∧
    CmdArg.file (0 : Nat) ∈ execute_aider_command_cmd none "diff".toList [0] [0] [0] "m".toList :=
  ⟨((pinned_files_double_read none "diff".toList [0] [(0 : Nat)] [0]
      "m".toList).2.1 0).trans (by decide),
   ((pinned_files_double_read none "diff".toList [0] [(0 : Nat)] [0]
      "m".toList).2.2 0 (Or.inl (by decide)) (by decide)).2⟩

end AiderAll
